import Mathlib

/-!
Verification of the code-refactor engine (app/refactor/refactor_rules.py,
app/refactor/ast_analyzer.py, app/main.py) against its specification.

The Python abstract syntax tree is shallowly embedded as the inductive
types `Ctx`, `Expr` and `Stmt` below; a module is a list of statements.
Each visitor class of the source is translated into explicit
state-passing recursion over this tree.  Change-log strings and
suggestion strings produced by Python f-strings are represented
structurally (one constructor per template, carrying the interpolated
values), which determines the rendered text.  Source text that reaches a
rule is represented by `PyCode`: a parseable text is represented by its
parse tree (`astor.to_source` round-trips trees, so serialization is the
identity at tree level), an unparseable text by the raw text together
with the parse-error message.
-/

/-- Expression context tag, mirroring ast.Load / ast.Store. -/
inductive Ctx where
  | load
  | store
deriving DecidableEq, Repr

/-- Boolean-operator kind, mirroring ast.And / ast.Or. -/
inductive BoolKind where
  | andOp
  | orOp
deriving DecidableEq, Repr

/-- Comparison-operator kind, mirroring ast.cmpop nodes. -/
inductive CmpKind where
  | lt
  | gt
  | le
  | ge
  | eqOp
  | neOp
deriving DecidableEq, Repr

/-- Binary arithmetic operator kind, mirroring ast.operator nodes. -/
inductive BinKind where
  | add
  | sub
  | mul
deriving DecidableEq, Repr

/-- Python expressions, mirroring the ast.expr nodes the engine handles:
Name, Constant, BoolOp, Compare, BinOp, Call and UnaryOp(Not). -/
inductive Expr where
  | name (id : String) (ctx : Ctx)
  | num (n : Int)
  | boolOp (op : BoolKind) (values : List Expr)
  | compare (left : Expr) (ops : List CmpKind) (comparators : List Expr)
  | binOp (left : Expr) (op : BinKind) (right : Expr)
  | call (func : Expr) (args : List Expr)
  | unaryNot (operand : Expr)
deriving Repr

/-- Python statements, mirroring the ast.stmt nodes the engine handles:
Assign, FunctionDef, If, Return, Expr and Pass.  Line positions are kept
where the source reads them. -/
inductive Stmt where
  | assign (targets : List Expr) (value : Expr) (lineno : Nat)
  | functionDef (fname : String) (body : List Stmt) (lineno endLineno : Nat)
  | ifStmt (test : Expr) (body orelse : List Stmt) (lineno : Nat)
  | ret (value : Option Expr)
  | exprStmt (value : Expr)
  | pass
deriving Repr

/-- A module is its list of body statements (ast.Module.body). -/
abbrev PyModule := List Stmt

/-- Change-log entries.  Each constructor stands for one f-string template
of the source, carrying the interpolated values. -/
inductive Change where
  | renamedVar (old new : String)
  | extractedConditional (var : String)
  | duplicateLine (lineno : Nat) (preview : String)
  | unusedVar (name : String)
  | duplicatePattern (fname : String)
  | ruleFailed (template msg : String)
deriving DecidableEq, Repr

/-- Suggestion entries produced by get_suggestions, one constructor per
f-string template. -/
inductive Suggestion where
  | errorReport (msg : String)
  | longFunction (fname : String) (lineCount : Nat)
  | unclearVariable (name : String)
  | complexConditional (line : Nat)
  | noIssues
deriving DecidableEq, Repr

/-! ## VariableRenamer (refactor_rules.py, class VariableRenamer) -/

/-- Allow-list of the renamer (visit_Assign):
common loop counters that are never renamed. -/
def renamerAllowList : List String :=
  ["i", "j", "k", "x", "y", "z", "a", "b", "c", "d", "m", "n"]

/-- Dictionary lookup in the rename table self.renamed_vars.  The table is
modelled as an association list where assignment prepends, so the first
hit is the most recent binding, matching dict overwrite semantics. -/
def tblLookup (tbl : List (String × String)) (k : String) : Option String :=
  match tbl.find? (fun p => p.1 == k) with
  | some p => some p.2
  | none => none

/-- Condition of visit_Assign for renaming a target:
len(old_name) == 1 and old_name not in the allow-list. -/
def renTargetHit (id : String) : Bool :=
  id.length == 1 && !(renamerAllowList.contains id)

mutual
/-- visit_Name of VariableRenamer: a Load reference whose id is in
renamed_vars is rewritten; generic_visit recurses into children.  The
expression walk does not change the renamer state, so it is pure in the
table. -/
def renExpr (tbl : List (String × String)) : Expr → Expr
  | .name id ctx =>
      match ctx, tblLookup tbl id with
      | .load, some new => .name new .load
      | .load, none => .name id .load
      | .store, _ => .name id .store
  | .num n => .num n
  | .boolOp op vs => .boolOp op (renExprList tbl vs)
  | .compare l ops cs => .compare (renExpr tbl l) ops (renExprList tbl cs)
  | .binOp l op r => .binOp (renExpr tbl l) op (renExpr tbl r)
  | .call f args => .call (renExpr tbl f) (renExprList tbl args)
  | .unaryNot e => .unaryNot (renExpr tbl e)

/-- Pointwise `renExpr` over a child list. -/
def renExprList (tbl : List (String × String)) : List Expr → List Expr
  | [] => []
  | e :: es => renExpr tbl e :: renExprList tbl es
end

/-- First loop of visit_Assign: each Name target with a one-character id
outside the allow-list is renamed to value_ plus the letter, the table
entry is recorded and a change is logged; other targets are skipped. -/
def renTargets (tbl : List (String × String)) :
    List Expr → List Expr × List (String × String) × List Change
  | [] => ([], tbl, [])
  | t :: ts =>
      match t with
      | .name id ctx =>
          if renTargetHit id then
            let new := "value_" ++ id
            let r := renTargets ((id, new) :: tbl) ts
            (.name new ctx :: r.1, r.2.1, .renamedVar id new :: r.2.2)
          else
            let r := renTargets tbl ts
            (.name id ctx :: r.1, r.2.1, r.2.2)
      | other =>
          let r := renTargets tbl ts
          (other :: r.1, r.2.1, r.2.2)

mutual
/-- Statement walk of VariableRenamer.  visit_Assign renames targets
first, then generic_visit rewrites references in the (already renamed)
targets and in the value.  visit_FunctionDef only assigns the never-read
field current_function_vars, so the shared table renamed_vars is threaded
through function boundaries unchanged, exactly as in the source. -/
def renStmt (tbl : List (String × String)) :
    Stmt → Stmt × List (String × String) × List Change
  | .assign targets value lineno =>
      let r := renTargets tbl targets
      (.assign (renExprList r.2.1 r.1) (renExpr r.2.1 value) lineno, r.2.1, r.2.2)
  | .functionDef fname body l e =>
      let r := renStmts tbl body
      (.functionDef fname r.1 l e, r.2.1, r.2.2)
  | .ifStmt test body orelse lineno =>
      let rb := renStmts tbl body
      let ro := renStmts rb.2.1 orelse
      (.ifStmt (renExpr tbl test) rb.1 ro.1 lineno, ro.2.1, rb.2.2 ++ ro.2.2)
  | .ret v => (.ret (v.map (renExpr tbl)), tbl, [])
  | .exprStmt v => (.exprStmt (renExpr tbl v), tbl, [])
  | .pass => (.pass, tbl, [])

/-- Sequential walk over a statement list, threading the renamer state. -/
def renStmts (tbl : List (String × String)) :
    List Stmt → List Stmt × List (String × String) × List Change
  | [] => ([], tbl, [])
  | s :: rest =>
      let r := renStmt tbl s
      let k := renStmts r.2.1 rest
      (r.1 :: k.1, k.2.1, r.2.2 ++ k.2.2)
end

/-- rename_unclear_variables at tree level: run the visitor over the
module body with the fresh state of VariableRenamer.__init__ and return
the mutated tree with the accumulated changes. -/
def rename_unclear_variables (m : PyModule) : PyModule × List Change :=
  ((renStmts [] m).1, (renStmts [] m).2.2)

/-! ## ConditionalSimplifier (refactor_rules.py, class ConditionalSimplifier) -/

/-- Mutable state of ConditionalSimplifier: the extraction counter, the
pending hoisted assignments and the change log. -/
structure CSState where
  conditional_count : Nat
  new_assignments : List Stmt
  changes_made : List Change
deriving Repr

mutual
/-- Statement walk of ConditionalSimplifier.  visit_If extracts a BoolOp
test with more than 2 operands into a pending assignment and replaces the
test by a Load reference before recursing; visit_FunctionDef prepends
whatever assignments are pending after its body walk and clears them.
visit_Module only calls generic_visit, so pending assignments reaching
module level are dropped, exactly as in the source. -/
def csStmt (st : CSState) : Stmt → Stmt × CSState
  | .ifStmt test body orelse lineno =>
      match test with
      | .boolOp op vs =>
          if vs.length > 2 then
            let cnt := st.conditional_count + 1
            let var := "should_execute_" ++ toString cnt
            let newAssign : Stmt := .assign [.name var .store] (.boolOp op vs) lineno
            let st1 : CSState :=
              { conditional_count := cnt,
                new_assignments := st.new_assignments ++ [newAssign],
                changes_made := st.changes_made ++ [.extractedConditional var] }
            let (body1, st2) := csStmts st1 body
            let (orelse1, st3) := csStmts st2 orelse
            (.ifStmt (.name var .load) body1 orelse1 lineno, st3)
          else
            let (body1, st1) := csStmts st body
            let (orelse1, st2) := csStmts st1 orelse
            (.ifStmt (.boolOp op vs) body1 orelse1 lineno, st2)
      | t =>
          let (body1, st1) := csStmts st body
          let (orelse1, st2) := csStmts st1 orelse
          (.ifStmt t body1 orelse1 lineno, st2)
  | .functionDef fname body l e =>
      let (body1, st1) := csStmts st body
      if st1.new_assignments.isEmpty then
        (.functionDef fname body1 l e, st1)
      else
        (.functionDef fname (st1.new_assignments ++ body1) l e,
         { st1 with new_assignments := [] })
  | s => (s, st)

/-- Sequential ConditionalSimplifier walk over a statement list. -/
def csStmts (st : CSState) : List Stmt → List Stmt × CSState
  | [] => ([], st)
  | s :: rest =>
      let (s1, st1) := csStmt st s
      let (rest1, st2) := csStmts st1 rest
      (s1 :: rest1, st2)
end

/-- simplify_complex_conditionals at tree level: run ConditionalSimplifier
over the module body with the fresh state of __init__ and return the
mutated tree with the accumulated changes. -/
def simplify_complex_conditionals (m : PyModule) : PyModule × List Change :=
  let (m1, st) := csStmts ⟨0, [], []⟩ m
  (m1, st.changes_made)

/-! ## extract_duplicate_functions (refactor_rules.py, top-level function)

The function works on raw text.  Python string primitives are embedded
over the character list of the string: `pySplitLines` is
code.split(chr 10), `pyStrip` is str.strip() for ASCII whitespace,
`pyTake` is slicing s[:n]. -/

/-- ASCII whitespace stripped by str.strip(). -/
def pyIsSpace (c : Char) : Bool :=
  c == ' ' || c == '\t' || c == '\n' || c == '\r' || c == '\x0b' || c == '\x0c'

/-- Python str.strip(): drop whitespace from both ends. -/
def pyStrip (s : String) : String :=
  ⟨((s.data.dropWhile pyIsSpace).reverse.dropWhile pyIsSpace).reverse⟩

/-- Helper of `pySplitLines`: split a character list at newlines. -/
def pySplitLinesAux : List Char → List Char → List String
  | [], acc => [⟨acc.reverse⟩]
  | c :: cs, acc =>
      if c == '\n' then ⟨acc.reverse⟩ :: pySplitLinesAux cs []
      else pySplitLinesAux cs (c :: acc)

/-- Python code.split with a newline separator. -/
def pySplitLines (s : String) : List String := pySplitLinesAux s.data []

/-- Python slicing s[:n] by characters. -/
def pyTake (n : Nat) (s : String) : String := ⟨s.data.take n⟩

/-- Python line.startswith with a hash mark. -/
def startsWithHash (s : String) : Bool :=
  match s.data with
  | [] => false
  | c :: _ => c == '#'

/-- Filter of the duplicate scan: the stripped line is non-empty, is not
a comment and has more than 5 characters. -/
def dupQualifies (stripped : String) : Bool :=
  !(stripped == "") && !(startsWithHash stripped) && stripped.length > 5

/-- Main loop of extract_duplicate_functions: enumerate lines, strip
each, and for qualifying lines either report a duplicate (1-based line
number, 40-character preview) or record the stripped text in seen_lines.
Only qualifying lines enter seen_lines, as in the source. -/
def dupScan : List String → Nat → List String → List Change
  | [], _, _ => []
  | line :: rest, i, seen =>
      let stripped := pyStrip line
      if dupQualifies stripped then
        if seen.contains stripped then
          .duplicateLine (i + 1) (pyTake 40 stripped) :: dupScan rest (i + 1) seen
        else
          dupScan rest (i + 1) (stripped :: seen)
      else
        dupScan rest (i + 1) seen

/-- extract_duplicate_functions: returns the text unchanged together with
one change per duplicated qualifying line. -/
def extract_duplicate_functions (code : String) : String × List Change :=
  (code, dupScan (pySplitLines code) 0 [])

/-! ## DeadCodeCleaner (refactor_rules.py, class DeadCodeCleaner) -/

/-- Mutable state of DeadCodeCleaner: the set used_vars of identifiers
seen in Load context so far, and the change log.  The Python set is
modelled as a duplicate-free list queried by membership. -/
structure DCState where
  used_vars : List String
  changes_made : List Change
deriving DecidableEq, Repr

/-- set.add of used_vars. -/
def dcAddUsed (st : DCState) (id : String) : DCState :=
  if st.used_vars.contains id then st
  else { st with used_vars := id :: st.used_vars }

mutual
/-- Expression walk of DeadCodeCleaner: visit_Name records identifiers
referenced in Load context. -/
def dcExpr (st : DCState) : Expr → DCState
  | .name id ctx =>
      match ctx with
      | .load => dcAddUsed st id
      | .store => st
  | .num _ => st
  | .boolOp _ vs => dcExprList st vs
  | .compare l _ cs => dcExprList (dcExpr st l) cs
  | .binOp l _ r => dcExpr (dcExpr st l) r
  | .call f args => dcExprList (dcExpr st f) args
  | .unaryNot e => dcExpr st e

/-- Sequential `dcExpr` over a child list. -/
def dcExprList (st : DCState) : List Expr → DCState
  | [] => st
  | e :: es => dcExprList (dcExpr st e) es
end

/-- First loop of visit_Assign of DeadCodeCleaner: each Name target whose
id is not in used_vars at this moment is flagged; used_vars itself is not
changed by the loop. -/
def dcFlagTargets (st : DCState) : List Expr → DCState
  | [] => st
  | .name id _ :: ts =>
      if st.used_vars.contains id then dcFlagTargets st ts
      else dcFlagTargets { st with changes_made := st.changes_made ++ [.unusedVar id] } ts
  | _ :: ts => dcFlagTargets st ts

mutual
/-- Statement walk of DeadCodeCleaner: visit_Assign flags the targets
before generic_visit walks the targets and the value, so only loads that
occurred strictly earlier in the traversal can protect a target. -/
def dcStmt (st : DCState) : Stmt → DCState
  | .assign targets value _ =>
      let st1 := dcFlagTargets st targets
      let st2 := dcExprList st1 targets
      dcExpr st2 value
  | .functionDef _ body _ _ => dcStmts st body
  | .ifStmt t body orelse _ => dcStmts (dcStmts (dcExpr st t) body) orelse
  | .ret v =>
      match v with
      | some e => dcExpr st e
      | none => st
  | .exprStmt e => dcExpr st e
  | .pass => st

/-- Sequential DeadCodeCleaner walk over a statement list. -/
def dcStmts (st : DCState) : List Stmt → DCState
  | [] => st
  | s :: rest => dcStmts (dcStmt st s) rest
end

/-- remove_dead_code at tree level: DeadCodeCleaner is a NodeVisitor and
mutates nothing, so the serialized tree is the input tree and only the
change log is produced. -/
def remove_dead_code (m : PyModule) : PyModule × List Change :=
  (m, (dcStmts ⟨[], []⟩ m).changes_made)

/-! ## MethodExtractor (refactor_rules.py, class MethodExtractor)

The fingerprint of a body statement is ast.dump(item): a structural
rendering of the node that includes identifiers but omits position
attributes.  It is embedded as `dumpStmt`, a string rendering of the
statement with line numbers left out. -/

/-- Rendering of comparison operators inside an ast.dump fingerprint. -/
def dumpCmpList : List CmpKind → String
  | [] => ""
  | op :: ops =>
      (match op with
       | .lt => "Lt()" | .gt => "Gt()" | .le => "LtE()"
       | .ge => "GtE()" | .eqOp => "Eq()" | .neOp => "NotEq()")
        ++ ";" ++ dumpCmpList ops

/-- Rendering of a context tag inside an ast.dump fingerprint. -/
def dumpCtx : Ctx → String
  | .load => "Load()"
  | .store => "Store()"

mutual
/-- ast.dump of an expression node (no position attributes). -/
def dumpExpr : Expr → String
  | .name id ctx => "Name(" ++ id ++ "," ++ dumpCtx ctx ++ ")"
  | .num n => "Constant(" ++ toString n ++ ")"
  | .boolOp op vs =>
      "BoolOp(" ++ (match op with | .andOp => "And" | .orOp => "Or")
        ++ ",[" ++ dumpExprList vs ++ "])"
  | .compare l ops cs =>
      "Compare(" ++ dumpExpr l ++ ",[" ++ dumpCmpList ops ++ "],["
        ++ dumpExprList cs ++ "])"
  | .binOp l op r =>
      "BinOp(" ++ dumpExpr l
        ++ (match op with | .add => ",Add()," | .sub => ",Sub()," | .mul => ",Mult(),")
        ++ dumpExpr r ++ ")"
  | .call f args => "Call(" ++ dumpExpr f ++ ",[" ++ dumpExprList args ++ "])"
  | .unaryNot e => "UnaryOp(Not()," ++ dumpExpr e ++ ")"

/-- Comma-joined ast.dump of a child list. -/
def dumpExprList : List Expr → String
  | [] => ""
  | e :: es => dumpExpr e ++ ";" ++ dumpExprList es
end

/-- ast.dump of the statement kinds fingerprinted by MethodExtractor. -/
def dumpStmt : Stmt → String
  | .assign ts v _ => "Assign([" ++ dumpExprList ts ++ "]," ++ dumpExpr v ++ ")"
  | .ret none => "Return()"
  | .ret (some e) => "Return(" ++ dumpExpr e ++ ")"
  | .exprStmt e => "Expr(" ++ dumpExpr e ++ ")"
  | _ => ""

/-- Fingerprint list of a function body: ast.dump of every direct child
that is an Assign, Expr or Return statement. -/
def meBodyDump : List Stmt → List String
  | [] => []
  | s :: rest =>
      match s with
      | .assign ts v l => dumpStmt (.assign ts v l) :: meBodyDump rest
      | .ret v => dumpStmt (.ret v) :: meBodyDump rest
      | .exprStmt e => dumpStmt (.exprStmt e) :: meBodyDump rest
      | _ => meBodyDump rest

/-- Duplicate check of MethodExtractor: walk the fingerprints with a seen
set and stop at the first repetition. -/
def meFirstDup : List String → List String → Bool
  | [], _ => false
  | s :: rest, seen =>
      if seen.contains s then true else meFirstDup rest (s :: seen)

mutual
/-- Statement walk of MethodExtractor: visit_FunctionDef reports at most
one duplicate pattern per function, then generic_visit recurses (so
nested functions are also checked). -/
def meStmt (chs : List Change) : Stmt → List Change
  | .functionDef fname body _ _ =>
      let chs1 :=
        if meFirstDup (meBodyDump body) [] then chs ++ [.duplicatePattern fname]
        else chs
      meStmts chs1 body
  | .ifStmt _ body orelse _ => meStmts (meStmts chs body) orelse
  | _ => chs

/-- Sequential MethodExtractor walk over a statement list. -/
def meStmts (chs : List Change) : List Stmt → List Change
  | [] => chs
  | s :: rest => meStmts (meStmt chs s) rest
end

/-- extract_method at tree level: MethodExtractor is report-only. -/
def extract_method (m : PyModule) : PyModule × List Change :=
  (m, meStmts [] m)

/-! ## CodeAnalyzer (ast_analyzer.py) -/

/-- Allow-list of the analyzer (visit_Assign): single letters that are
not reported as unclear. -/
def analyzerAllowList : List String := ["i", "j", "k", "x", "y", "z"]

/-- LongFunction finding: function name, line count, first line. -/
structure LongFunc where
  fname : String
  lines : Nat
  line : Nat
deriving DecidableEq, Repr

/-- UnclearVariable finding: name, line, enclosing context. -/
structure UnclearVar where
  vname : String
  line : Nat
  context : String
deriving DecidableEq, Repr

/-- ComplexConditional finding: line and complexity score. -/
structure ComplexCond where
  line : Nat
  complexity : Nat
deriving DecidableEq, Repr

mutual
/-- _check_conditional_complexity: a BoolOp or Compare node counts 1 plus
the recursive score of every child node (ast.iter_child_nodes also yields
the operator nodes, which score 0); any other node scores 0. -/
def checkConditionalComplexity : Expr → Nat
  | .boolOp _ vs => 1 + ccList vs
  | .compare l _ cs => 1 + checkConditionalComplexity l + ccList cs
  | _ => 0

/-- Sum of `checkConditionalComplexity` over a child list. -/
def ccList : List Expr → Nat
  | [] => 0
  | e :: es => checkConditionalComplexity e + ccList es
end

/-- Mutable state of CodeAnalyzer. -/
structure AnState where
  current_function : Option String
  long_functions : List LongFunc
  unclear_variables : List UnclearVar
  complex_conditionals : List ComplexCond
deriving Repr

/-- Loop of visit_Assign of CodeAnalyzer: report every one-character Name
target outside the analyzer allow-list, tagged with the enclosing
function or the global context. -/
def anAssignTargets (st : AnState) (lineno : Nat) : List Expr → AnState
  | [] => st
  | .name id _ :: ts =>
      if id.length == 1 && !(analyzerAllowList.contains id) then
        anAssignTargets
          { st with unclear_variables :=
              st.unclear_variables ++ [⟨id, lineno, st.current_function.getD "global"⟩] }
          lineno ts
      else anAssignTargets st lineno ts
  | _ :: ts => anAssignTargets st lineno ts

mutual
/-- Statement walk of CodeAnalyzer: visit_FunctionDef measures the line
span (end_lineno minus lineno, with a falsy end_lineno giving 0) against
the threshold 15 and tracks the current function around its body;
visit_Assign reports unclear targets; visit_If scores the test against
the threshold 2 and then recurses. -/
def anStmt (st : AnState) : Stmt → AnState
  | .functionDef fname body line endLine =>
      let flen := if endLine == 0 then 0 else endLine - line
      let st1 := { st with current_function := some fname }
      let st2 :=
        if flen > 15 then
          { st1 with long_functions := st1.long_functions ++ [⟨fname, flen, line⟩] }
        else st1
      let st3 := anStmts st2 body
      { st3 with current_function := st.current_function }
  | .assign targets _ lineno => anAssignTargets st lineno targets
  | .ifStmt t body orelse lineno =>
      let c := checkConditionalComplexity t
      let st1 :=
        if c > 2 then
          { st with complex_conditionals := st.complex_conditionals ++ [⟨lineno, c⟩] }
        else st
      anStmts (anStmts st1 body) orelse
  | _ => st

/-- Sequential CodeAnalyzer walk over a statement list. -/
def anStmts (st : AnState) : List Stmt → AnState
  | [] => st
  | s :: rest => anStmts (anStmt st s) rest
end

/-! ## Serializer (astor.to_source, external library, modelled for the
embedded fragment).  It is used only to hand the raw text of a parseable
tree to the line-based duplicate rule inside the request pipeline. -/

/-- Spelled form of a comparison operator. -/
def cmpText : CmpKind → String
  | .lt => " < "
  | .gt => " > "
  | .le => " <= "
  | .ge => " >= "
  | .eqOp => " == "
  | .neOp => " != "

mutual
/-- Source text of an expression. -/
def exprText : Expr → String
  | .name id _ => id
  | .num n => toString n
  | .boolOp op vs =>
      exprJoin (match op with | .andOp => " and " | .orOp => " or ") vs
  | .compare l ops cs => exprText l ++ cmpChain ops cs
  | .binOp l op r =>
      exprText l ++ (match op with | .add => " + " | .sub => " - " | .mul => " * ")
        ++ exprText r
  | .call f args => exprText f ++ "(" ++ exprJoin ", " args ++ ")"
  | .unaryNot e => "not " ++ exprText e

/-- Separator-joined source text of an expression list. -/
def exprJoin (sep : String) : List Expr → String
  | [] => ""
  | [e] => exprText e
  | e :: es => exprText e ++ sep ++ exprJoin sep es

/-- Tail of a comparison chain. -/
def cmpChain : List CmpKind → List Expr → String
  | op :: ops, c :: cs => cmpText op ++ exprText c ++ cmpChain ops cs
  | _, _ => ""
end

mutual
/-- Source lines of a statement at a given indentation. -/
def stmtLines (ind : String) : Stmt → List String
  | .assign ts v _ => [ind ++ exprJoin " = " ts ++ " = " ++ exprText v]
  | .functionDef fname body _ _ =>
      (ind ++ "def " ++ fname ++ "():") :: stmtsLines (ind ++ "    ") body
  | .ifStmt t body orelse _ =>
      ((ind ++ "if " ++ exprText t ++ ":") :: stmtsLines (ind ++ "    ") body)
        ++ (if orelse.isEmpty then []
            else (ind ++ "else:") :: stmtsLines (ind ++ "    ") orelse)
  | .ret none => [ind ++ "return"]
  | .ret (some e) => [ind ++ "return " ++ exprText e]
  | .exprStmt e => [ind ++ exprText e]
  | .pass => [ind ++ "pass"]

/-- Source lines of a statement list. -/
def stmtsLines (ind : String) : List Stmt → List String
  | [] => []
  | s :: rest => stmtLines ind s ++ stmtsLines ind rest
end

/-- Newline join of a line list. -/
def joinLines : List String → String
  | [] => ""
  | [l] => l
  | l :: ls => l ++ "\n" ++ joinLines ls

/-- Serialized source text of a module. -/
def toSource (m : PyModule) : String := joinLines (stmtsLines "" m)

/-! ## Source text, parsing outcome and the request pipeline (main.py) -/

/-- Source text as seen by the engine.  A parseable text is represented
by its parse tree (the Parser and Serializer round-trip, so the tree
determines the text up to formatting); an unparseable text keeps its raw
text and the message of the SyntaxError raised by ast.parse, which every
rule and the analyzer re-raise identically because parsing is
deterministic and the failing rules leave the text unchanged. -/
inductive PyCode where
  | ok (m : PyModule)
  | err (text msg : String)

/-- Raw text of the code, as handed to the line-based duplicate rule. -/
def pyCodeText : PyCode → String
  | .ok m => toSource m
  | .err t _ => t

/-- Analysis dictionary of analyze_code: the optional error entry plus
the three finding lists (the duplicate_code and code_smells entries of
the source are never written and are omitted). -/
structure Analysis where
  error : Option String
  long_functions : List LongFunc
  unclear_variables : List UnclearVar
  complex_conditionals : List ComplexCond
deriving DecidableEq, Repr

/-- analyze_code: on a parse tree run CodeAnalyzer from its fresh state;
on a SyntaxError return the error entry with all three lists empty. -/
def analyze_code : PyCode → Analysis
  | .ok m =>
      let st := anStmts ⟨none, [], [], []⟩ m
      ⟨none, st.long_functions, st.unclear_variables, st.complex_conditionals⟩
  | .err _ msg => ⟨some ("Syntax error: " ++ msg), [], [], []⟩

/-- get_suggestions: an error short-circuits to exactly one entry;
otherwise the findings are rendered grouped by kind, and an empty result
becomes the single affirmative message. -/
def get_suggestions (a : Analysis) : List Suggestion :=
  match a.error with
  | some msg => [.errorReport msg]
  | none =>
      let s :=
        a.long_functions.map (fun f => Suggestion.longFunction f.fname f.lines)
          ++ a.unclear_variables.map (fun v => Suggestion.unclearVariable v.vname)
          ++ a.complex_conditionals.map (fun c => Suggestion.complexConditional c.line)
      if s.isEmpty then [.noIssues] else s

/-- rename_unclear_variables on source text: parse, visit, serialize; on
a SyntaxError return the text unchanged plus one diagnostic. -/
def rename_variables_rule : PyCode → PyCode × List Change
  | .ok m =>
      let (m1, chs) := rename_unclear_variables m
      (.ok m1, chs)
  | .err t msg => (.err t msg, [.ruleFailed "Could not rename variables" msg])

/-- extract_duplicate_functions on source text: the scan works on raw
lines whether or not the text parses, and never changes the text. -/
def extract_duplicate_rule (code : PyCode) : PyCode × List Change :=
  (code, (extract_duplicate_functions (pyCodeText code)).2)

/-- simplify_complex_conditionals on source text. -/
def simplify_conditionals_rule : PyCode → PyCode × List Change
  | .ok m =>
      let (m1, chs) := simplify_complex_conditionals m
      (.ok m1, chs)
  | .err t msg => (.err t msg, [.ruleFailed "Could not simplify conditionals" msg])

/-- extract_method on source text. -/
def extract_method_rule : PyCode → PyCode × List Change
  | .ok m =>
      let (m1, chs) := extract_method m
      (.ok m1, chs)
  | .err t msg => (.err t msg, [.ruleFailed "Could not extract methods" msg])

/-- remove_dead_code on source text. -/
def remove_dead_code_rule : PyCode → PyCode × List Change
  | .ok m =>
      let (m1, chs) := remove_dead_code m
      (.ok m1, chs)
  | .err t msg => (.err t msg, [.ruleFailed "Could not remove dead code" msg])

/-- Response of the refactor endpoint. -/
structure RefactorResponse where
  original_code : PyCode
  refactored_code : PyCode
  changes_made : List Change
  suggestions : List Suggestion

/-- refactor_code of main.py: analyze the original code, then test each
of the five rule identifiers for membership in refactor_options in the
fixed written order, applying the matching rule to the text produced so
far and extending the change list, and finally render suggestions from
the original analysis. -/
def refactor_code (code : PyCode) (refactor_options : List String) :
    RefactorResponse :=
  let analysis := analyze_code code
  let r1 :=
    if refactor_options.contains "rename_variables"
    then rename_variables_rule code else (code, [])
  let r2 :=
    if refactor_options.contains "extract_duplicate"
    then extract_duplicate_rule r1.1 else (r1.1, [])
  let r3 :=
    if refactor_options.contains "simplify_conditionals"
    then simplify_conditionals_rule r2.1 else (r2.1, [])
  let r4 :=
    if refactor_options.contains "extract_method"
    then extract_method_rule r3.1 else (r3.1, [])
  let r5 :=
    if refactor_options.contains "remove_dead_code"
    then remove_dead_code_rule r4.1 else (r4.1, [])
  { original_code := code,
    refactored_code := r5.1,
    changes_made := r1.2 ++ r2.2 ++ r3.2 ++ r4.2 ++ r5.2,
    suggestions := get_suggestions analysis }

/-! ## Specification-side characterizations.  The following definitions
are written from the wording of the specification and of the claims, to
be compared with the engine definitions above. -/

/-- Dispatch from a rule identifier of the request enumeration to the
corresponding rule, for stating claims about rule-application order. -/
def applyRuleById (rid : String) (code : PyCode) : PyCode × List Change :=
  if rid == "rename_variables" then rename_variables_rule code
  else if rid == "extract_duplicate" then extract_duplicate_rule code
  else if rid == "simplify_conditionals" then simplify_conditionals_rule code
  else if rid == "extract_method" then extract_method_rule code
  else if rid == "remove_dead_code" then remove_dead_code_rule code
  else (code, [])

/-- Claim-side rule application: execute exactly the rules named in the
ruleIds sequence, strictly in the order given by the caller, each rule
receiving the code produced by the previous rule. -/
def applyRulesInCallerOrder (code : PyCode) : List String → PyCode × List Change
  | [] => (code, [])
  | rid :: rest =>
      let r := applyRuleById rid code
      let k := applyRulesInCallerOrder r.1 rest
      (k.1, r.2 ++ k.2)

/-- Fixed internal order in which main.py tests the rule identifiers. -/
def fixedRuleOrder : List String :=
  ["rename_variables", "extract_duplicate", "simplify_conditionals",
   "extract_method", "remove_dead_code"]

/-- Amended-claim-side rule application: walk the fixed internal order
and apply each rule exactly once when its identifier is a member of the
selected options, chaining the code through. -/
def applyRulesFixedOrder (code : PyCode) (opts : List String) :
    PyCode × List Change :=
  fixedRuleOrder.foldl
    (fun acc rid =>
      if opts.contains rid then
        ((applyRuleById rid acc.1).1, acc.2 ++ (applyRuleById rid acc.1).2)
      else acc)
    (code, [])

/-- Traversal events of the DeadCodeCleaner walk: a Load reference of an
identifier, or an Assign target about to be tested. -/
inductive DCEvent where
  | loadRef (id : String)
  | assignTarget (id : String)
deriving DecidableEq, Repr

mutual
/-- Flattening of an expression into its DeadCodeCleaner events in
visit order. -/
def dcEventsExpr : Expr → List DCEvent
  | .name id ctx =>
      match ctx with
      | .load => [.loadRef id]
      | .store => []
  | .num _ => []
  | .boolOp _ vs => dcEventsExprList vs
  | .compare l _ cs => dcEventsExpr l ++ dcEventsExprList cs
  | .binOp l _ r => dcEventsExpr l ++ dcEventsExpr r
  | .call f args => dcEventsExpr f ++ dcEventsExprList args
  | .unaryNot e => dcEventsExpr e

/-- Flattening of an expression list into DeadCodeCleaner events. -/
def dcEventsExprList : List Expr → List DCEvent
  | [] => []
  | e :: es => dcEventsExpr e ++ dcEventsExprList es
end

/-- Flag events of the Name targets of one assignment, in target order. -/
def dcTargetEvents : List Expr → List DCEvent
  | [] => []
  | .name id _ :: ts => .assignTarget id :: dcTargetEvents ts
  | _ :: ts => dcTargetEvents ts

mutual
/-- Flattening of a statement into its DeadCodeCleaner events: an Assign
contributes its target tests first, then the loads of its targets and of
its value, matching the order of visit_Assign. -/
def dcEventsStmt : Stmt → List DCEvent
  | .assign ts v _ => dcTargetEvents ts ++ dcEventsExprList ts ++ dcEventsExpr v
  | .functionDef _ body _ _ => dcEventsStmts body
  | .ifStmt t body orelse _ => dcEventsExpr t ++ dcEventsStmts body ++ dcEventsStmts orelse
  | .ret (some e) => dcEventsExpr e
  | .ret none => []
  | .exprStmt e => dcEventsExpr e
  | .pass => []

/-- Flattening of a statement list into DeadCodeCleaner events. -/
def dcEventsStmts : List Stmt → List DCEvent
  | [] => []
  | s :: rest => dcEventsStmt s ++ dcEventsStmts rest
end

/-- One DeadCodeCleaner step on one event. -/
def dcStep (st : DCState) : DCEvent → DCState
  | .loadRef id => dcAddUsed st id
  | .assignTarget id =>
      if st.used_vars.contains id then st
      else { st with changes_made := st.changes_made ++ [.unusedVar id] }

/-- Fold of DeadCodeCleaner steps over an event list. -/
def dcFold (st : DCState) : List DCEvent → DCState
  | [] => st
  | ev :: evs => dcFold (dcStep st ev) evs

/-- Amended-claim-side dead-binding characterization: walking the events
in traversal order, an assignment target is flagged exactly when its
identifier has not occurred as a load strictly earlier in the traversal. -/
def dcFlagsSpec (loads : List String) : List DCEvent → List Change
  | [] => []
  | .loadRef id :: evs => dcFlagsSpec (id :: loads) evs
  | .assignTarget id :: evs =>
      if loads.contains id then dcFlagsSpec loads evs
      else .unusedVar id :: dcFlagsSpec loads evs

/-- Claim-side dead-binding characterization as stated: an assignment
target is flagged exactly when its identifier is never referenced in
load context anywhere in the whole tree, one record per target, in
traversal order. -/
def dcFlagsClaimGlobal (m : PyModule) : List Change :=
  (dcEventsStmts m).filterMap
    (fun ev =>
      match ev with
      | .assignTarget id =>
          if (dcEventsStmts m).contains (.loadRef id) then none
          else some (.unusedVar id)
      | .loadRef _ => none)

/-- Claim-side duplicate-line filter, applied to a raw line. -/
def dupLineQualifies (line : String) : Bool := dupQualifies (pyStrip line)

/-- Claim-side duplicate scan: a change is emitted exactly for every
qualifying line whose trimmed text has already occurred (trimmed) earlier
in the file, among all earlier lines. -/
def dupSpecScan : List String → Nat → List String → List Change
  | [], _, _ => []
  | line :: rest, i, earlier =>
      (if dupLineQualifies line && earlier.contains (pyStrip line) then
        [.duplicateLine (i + 1) (pyTake 40 (pyStrip line))]
      else [])
        ++ dupSpecScan rest (i + 1) (pyStrip line :: earlier)

mutual
/-- Pre-order collection of every if statement of a module, as the pair
of its line and its test expression. -/
def collectIfTests : Stmt → List (Nat × Expr)
  | .functionDef _ body _ _ => collectIfTestsList body
  | .ifStmt t body orelse lineno =>
      (lineno, t) :: (collectIfTestsList body ++ collectIfTestsList orelse)
  | _ => []

/-- Pre-order collection of the if statements of a statement list. -/
def collectIfTestsList : List Stmt → List (Nat × Expr)
  | [] => []
  | s :: rest => collectIfTests s ++ collectIfTestsList rest
end

/-- Stability predicate for one assignment target: a direct Name target
that the renamer would not hit. -/
def renTargetOk : Expr → Bool
  | .name id _ => !(renTargetHit id)
  | _ => true

/-- Pointwise `renTargetOk` over a target list. -/
def renTargetsOk : List Expr → Bool
  | [] => true
  | t :: ts => renTargetOk t && renTargetsOk ts

mutual
/-- Stability predicate of a statement: no assignment anywhere in it has
a one-character Name target outside the allow-list. -/
def renStableStmt : Stmt → Bool
  | .assign ts _ _ => renTargetsOk ts
  | .functionDef _ body _ _ => renStableStmts body
  | .ifStmt _ body orelse _ => renStableStmts body && renStableStmts orelse
  | _ => true

/-- Pointwise `renStableStmt` over a statement list. -/
def renStableStmts : List Stmt → Bool
  | [] => true
  | s :: rest => renStableStmt s && renStableStmts rest
end

mutual
/-- Occurrence of a Load reference of the given identifier anywhere in
an expression. -/
def hasLoadOf (q : String) : Expr → Bool
  | .name id .load => id == q
  | .name _ .store => false
  | .num _ => false
  | .boolOp _ vs => hasLoadOfList q vs
  | .compare l _ cs => hasLoadOf q l || hasLoadOfList q cs
  | .binOp l _ r => hasLoadOf q l || hasLoadOf q r
  | .call f args => hasLoadOf q f || hasLoadOfList q args
  | .unaryNot e => hasLoadOf q e

/-- Pointwise `hasLoadOf` over a child list. -/
def hasLoadOfList (q : String) : List Expr → Bool
  | [] => false
  | e :: es => hasLoadOf q e || hasLoadOfList q es
end

/-! ## Concrete programs used by counterexamples and failing inputs -/

/-- Source tree of the two-function program
def f(): q = 1 / def g(): return q. -/
def twoScopeProgram : PyModule :=
  [.functionDef "f" [.assign [.name "q" .store] (.num 1) 2] 1 2,
   .functionDef "g" [.ret (some (.name "q" .load))] 4 5]

/-- Source tree of the module-level statement
if a and b and c: pass. -/
def moduleIfProgram : PyModule :=
  [.ifStmt (.boolOp .andOp [.name "a" .load, .name "b" .load, .name "c" .load])
    [.pass] [] 1]

/-- Source tree of q = 1 followed by print(q). -/
def useAfterAssignProgram : PyModule :=
  [.assign [.name "q" .store] (.num 1) 1,
   .exprStmt (.call (.name "print" .load) [.name "q" .load])]

/-- Source tree of q = 1 followed by a complex module-level conditional,
so that two different rules each produce one change. -/
def twoRuleProgram : PyModule :=
  [.assign [.name "q" .store] (.num 1) 1,
   .ifStmt (.boolOp .andOp [.name "a" .load, .name "b" .load, .name "c" .load])
     [.pass] [] 2]

/-- Rule selection naming simplify_conditionals before rename_variables. -/
def reversedRuleIds : List String := ["simplify_conditionals", "rename_variables"]

/-! ## Claim theorems -/

/-- Claim C1 (code bug witness): running rename_variables on a program
with two function scopes renames the binding q inside f and also
rewrites the Load reference to q inside the body of g, because
renamed_vars is one shared dictionary (the per-function reset writes the
never-read field current_function_vars).  The claim says a rename inside
one scope never causes a rewrite in any other scope, and the comment in
visit_FunctionDef documents that intent, so the code contradicts its own
documentation. -/
theorem c1_rename_leaks_across_function_scopes :
    rename_unclear_variables twoScopeProgram
      = ([.functionDef "f" [.assign [.name "value_q" .store] (.num 1) 2] 1 2,
          .functionDef "g" [.ret (some (.name "value_q" .load))] 4 5],
         [.renamedVar "q" "value_q"]) := rfl

/-- Claim C3 (code bug witness): on the module-level input
if a and b and c: pass, simplify_conditionals replaces the test by the
name should_execute_1 and logs the extraction, but the hoisted assignment
should_execute_1 = a and b and c is never inserted anywhere: visit_Module
drops the pending new_assignments, leaving a program that reads an
undefined name.  The claim (and Scenario 2 of the specification) says
the assignment immediately precedes the if. -/
theorem c3_module_level_hoist_dropped :
    simplify_complex_conditionals moduleIfProgram
      = ([.ifStmt (.name "should_execute_1" .load) [.pass] [] 1],
         [.extractedConditional "should_execute_1"]) := rfl

/-- Claim C4 (counterexample): on the input a = 1 the renamer performs no
rename at all, because a is in the allow-list of visit_Assign, so the
output still assigns a and the change list is empty rather than
containing the record for renaming a to value_a. -/
theorem c4_scenario_one_counterexample :
    rename_unclear_variables [.assign [.name "a" .store] (.num 1) 1]
        = ([.assign [.name "a" .store] (.num 1) 1], [])
      ∧ Change.renamedVar "a" "value_a"
          ∉ (rename_unclear_variables [.assign [.name "a" .store] (.num 1) 1]).2 := by
  exact ⟨rfl, by decide⟩

/-- Claim C4 (amended): a = 1 is left unchanged with an empty change list
because a is allow-listed; for a one-letter target outside the
allow-list, such as q = 1, the output assigns value_q = 1 and the change
list contains exactly the record for renaming q to value_q. -/
theorem c4_amended_allowlisted_letter_kept :
    rename_unclear_variables [.assign [.name "a" .store] (.num 1) 1]
        = ([.assign [.name "a" .store] (.num 1) 1], [])
      ∧ rename_unclear_variables [.assign [.name "q" .store] (.num 1) 1]
        = ([.assign [.name "value_q" .store] (.num 1) 1],
           [.renamedVar "q" "value_q"]) :=
  ⟨rfl, rfl⟩

/-- Claim C2 (counterexample): with ruleIds naming simplify_conditionals
before rename_variables, refactor_code still applies rename_variables
first (its membership test comes first in the fixed written order), so
the change log disagrees with an application in caller order. -/
theorem c2_caller_order_counterexample :
    ¬ ((refactor_code (.ok twoRuleProgram) reversedRuleIds).refactored_code
          = (applyRulesInCallerOrder (.ok twoRuleProgram) reversedRuleIds).1
        ∧ (refactor_code (.ok twoRuleProgram) reversedRuleIds).changes_made
          = (applyRulesInCallerOrder (.ok twoRuleProgram) reversedRuleIds).2) := by
  intro h
  exact absurd h.2 (by decide)

/-- Claim C5 (counterexample): in the program q = 1; print(q), the name q
is referenced in load context later in the tree, so the claim says q is
never flagged; the single-pass DeadCodeCleaner tests q before any load
has been collected and flags it anyway. -/
theorem c5_later_load_counterexample :
    (remove_dead_code useAfterAssignProgram).2 = [.unusedVar "q"]
      ∧ dcFlagsClaimGlobal useAfterAssignProgram = []
      ∧ (remove_dead_code useAfterAssignProgram).2
          ≠ dcFlagsClaimGlobal useAfterAssignProgram := by
  refine ⟨rfl, rfl, ?_⟩
  decide

/-- Claim C2 (amended): refactor_code applies, for every request, exactly
the selected rules once each, in the fixed internal order
rename_variables, extract_duplicate, simplify_conditionals,
extract_method, remove_dead_code (membership in ruleIds selects a rule,
its position there is ignored), with each applied rule receiving the
code produced by the previously applied rule. -/
theorem c2_fixed_order_execution (code : PyCode) (opts : List String) :
    (refactor_code code opts).refactored_code = (applyRulesFixedOrder code opts).1
      ∧ (refactor_code code opts).changes_made = (applyRulesFixedOrder code opts).2 := by
  by_cases h1 : "rename_variables" ∈ opts <;>
    by_cases h2 : "extract_duplicate" ∈ opts <;>
      by_cases h3 : "simplify_conditionals" ∈ opts <;>
        by_cases h4 : "extract_method" ∈ opts <;>
          by_cases h5 : "remove_dead_code" ∈ opts <;>
            simp [refactor_code, applyRulesFixedOrder, fixedRuleOrder,
              applyRuleById, h1, h2, h3, h4, h5]

/-- Claim C9 (confirmed): on a syntactically invalid source text, every
selected rule catches the parse failure and returns its input text
unchanged, so refactoredText equals originalText; the analyzer catches
the same failure, so the three finding lists are empty and the
suggestion list is exactly one error-describing entry. -/
theorem c9_invalid_input_response (t msg : String) (opts : List String) :
    (refactor_code (.err t msg) opts).refactored_code
        = (refactor_code (.err t msg) opts).original_code
      ∧ (refactor_code (.err t msg) opts).suggestions
          = [.errorReport ("Syntax error: " ++ msg)]
      ∧ (analyze_code (.err t msg)).long_functions = []
      ∧ (analyze_code (.err t msg)).unclear_variables = []
      ∧ (analyze_code (.err t msg)).complex_conditionals = [] := by
  refine ⟨?_, rfl, rfl, rfl, rfl⟩
  by_cases h1 : "rename_variables" ∈ opts <;>
    by_cases h2 : "extract_duplicate" ∈ opts <;>
      by_cases h3 : "simplify_conditionals" ∈ opts <;>
        by_cases h4 : "extract_method" ∈ opts <;>
          by_cases h5 : "remove_dead_code" ∈ opts <;>
            simp [refactor_code, rename_variables_rule, extract_duplicate_rule,
              simplify_conditionals_rule, extract_method_rule,
              remove_dead_code_rule, h1, h2, h3, h4, h5]

/-- Helper for claim C6: the seen_lines dictionary of the source holds
exactly the qualifying earlier stripped lines, and qualification depends
only on the stripped text, so testing seen_lines coincides with testing
membership among the stripped forms of all earlier lines whenever the
current line itself qualifies. -/
theorem dupScan_eq_dupSpecScan (lines : List String) :
    ∀ (i : Nat) (seen earlier : List String),
      (∀ s : String, s ∈ seen ↔ (s ∈ earlier ∧ dupQualifies s = true)) →
      dupScan lines i seen = dupSpecScan lines i earlier := by
  induction lines with
  | nil => intro i seen earlier _; rfl
  | cons line rest ih =>
      intro i seen earlier h
      by_cases hq : dupQualifies (pyStrip line) = true
      · by_cases hc : pyStrip line ∈ earlier
        · have hs : pyStrip line ∈ seen := (h _).mpr ⟨hc, hq⟩
          simp only [dupScan, dupSpecScan, dupLineQualifies]
          simp [hq, hs, hc]
          exact ih (i + 1) seen (pyStrip line :: earlier) (fun s => by
            rw [h s]
            simp only [List.mem_cons]
            constructor
            · rintro ⟨h1, h2⟩; exact ⟨Or.inr h1, h2⟩
            · rintro ⟨rfl | h1, h2⟩
              · exact ⟨hc, hq⟩
              · exact ⟨h1, h2⟩)
        · have hs : pyStrip line ∉ seen := fun hmem => hc ((h _).mp hmem).1
          simp only [dupScan, dupSpecScan, dupLineQualifies]
          simp [hq, hs, hc]
          exact ih (i + 1) (pyStrip line :: seen) (pyStrip line :: earlier) (fun s => by
            simp only [List.mem_cons, h s]
            constructor
            · rintro (rfl | ⟨h1, h2⟩)
              · exact ⟨Or.inl rfl, hq⟩
              · exact ⟨Or.inr h1, h2⟩
            · rintro ⟨rfl | h1, h2⟩
              · exact Or.inl rfl
              · exact Or.inr ⟨h1, h2⟩)
      · simp only [dupScan, dupSpecScan, dupLineQualifies]
        simp [hq]
        exact ih (i + 1) seen (pyStrip line :: earlier) (fun s => by
          rw [h s]
          simp only [List.mem_cons]
          constructor
          · rintro ⟨h1, h2⟩; exact ⟨Or.inr h1, h2⟩
          · rintro ⟨rfl | h1, h2⟩
            · exact absurd h2 hq
            · exact ⟨h1, h2⟩)

/-- Claim C6 (confirmed): extract_duplicate_functions always returns the
text unchanged, its change list contains exactly one record for every
line whose stripped text qualifies (non-blank, no leading hash mark,
more than 5 characters) and has occurred stripped on an earlier line,
naming the 1-based line number and a preview of at most 40 characters;
and the two-line file repeating result = compute(x, y) yields exactly
one duplicate change naming line 2. -/
theorem c6_duplicate_line_detection :
    (∀ code : String,
        extract_duplicate_functions code
          = (code, dupSpecScan (pySplitLines code) 0 []))
      ∧ (∀ s : String, (pyTake 40 s).length ≤ 40)
      ∧ extract_duplicate_functions "result = compute(x, y)\nresult = compute(x, y)"
          = ("result = compute(x, y)\nresult = compute(x, y)",
             [.duplicateLine 2 "result = compute(x, y)"]) := by
  refine ⟨?_, ?_, by decide⟩
  · intro code
    unfold extract_duplicate_functions
    rw [dupScan_eq_dupSpecScan _ 0 [] [] (by simp)]
  · intro s
    show (s.data.take 40).length ≤ 40
    simp [List.length_take]

/-- Emission rule of visit_If: a finding carrying the score is produced
exactly when the score exceeds 2. -/
def ccFinding (p : Nat × Expr) : Option ComplexCond :=
  if checkConditionalComplexity p.2 > 2 then
    some ⟨p.1, checkConditionalComplexity p.2⟩
  else none

/-- Helper: the accumulated child score is the sum of the child scores. -/
theorem ccList_eq_map_sum (vs : List Expr) :
    ccList vs = (vs.map checkConditionalComplexity).sum := by
  induction vs with
  | nil => rfl
  | cons e es ih => simp [ccList, ih]

/-- Helper: the unclear-variable loop of visit_Assign never touches the
complex-conditional list. -/
theorem anAssignTargets_conds (ts : List Expr) :
    ∀ (st : AnState) (lineno : Nat),
      (anAssignTargets st lineno ts).complex_conditionals
        = st.complex_conditionals := by
  induction ts with
  | nil => intro st lineno; rfl
  | cons t ts ih =>
      intro st lineno
      cases t <;> simp only [anAssignTargets] <;>
        first
          | (split <;> simp [ih])
          | simp [ih]

mutual
/-- Helper: the complex-conditional findings of the analyzer walk of one
statement are the pre-order if tests filtered by the emission rule. -/
theorem anStmt_conds : ∀ (s : Stmt) (st : AnState),
    (anStmt st s).complex_conditionals
      = st.complex_conditionals ++ (collectIfTests s).filterMap ccFinding
  | .assign targets value lineno, st => by
      simp [anStmt, collectIfTests, anAssignTargets_conds]
  | .functionDef fname body l e, st => by
      have hb := anStmts_conds body
      simp only [anStmt, collectIfTests]
      split <;> split <;> simp [hb]
  | .ifStmt t body orelse lineno, st => by
      have hb := anStmts_conds body
      have ho := anStmts_conds orelse
      simp only [anStmt, collectIfTests]
      split <;>
        simp_all [ccFinding, List.filterMap_cons, List.filterMap_append]
  | .ret v, st => by simp [anStmt, collectIfTests]
  | .exprStmt v, st => by simp [anStmt, collectIfTests]
  | .pass, st => by simp [anStmt, collectIfTests]

/-- Helper: list version of `anStmt_conds`. -/
theorem anStmts_conds : ∀ (ss : List Stmt) (st : AnState),
    (anStmts st ss).complex_conditionals
      = st.complex_conditionals ++ (collectIfTestsList ss).filterMap ccFinding
  | [], st => by simp [anStmts, collectIfTestsList]
  | s :: rest, st => by
      have h1 := anStmt_conds s st
      have h2 := anStmts_conds rest (anStmt st s)
      simp [anStmts, collectIfTestsList, h1, h2, List.filterMap_append]
end

/-- Claim C7 (confirmed): for every parseable module, the analyzer emits
one ComplexConditional finding, carrying the score, for exactly those if
statements whose test scores above 2 (in pre-order); and the score obeys
the claimed recursion, where a boolean-operator or comparison node counts
1 plus the sum of the scores of its children and every other node kind
counts 0. -/
theorem c7_conditional_complexity_findings (m : PyModule) :
    (analyze_code (.ok m)).complex_conditionals
        = (collectIfTestsList m).filterMap ccFinding
      ∧ (∀ op vs, checkConditionalComplexity (.boolOp op vs)
            = 1 + (vs.map checkConditionalComplexity).sum)
      ∧ (∀ l ops cs, checkConditionalComplexity (.compare l ops cs)
            = 1 + checkConditionalComplexity l
                + (cs.map checkConditionalComplexity).sum)
      ∧ (∀ id ctx, checkConditionalComplexity (.name id ctx) = 0)
      ∧ (∀ n, checkConditionalComplexity (.num n) = 0)
      ∧ (∀ l op r, checkConditionalComplexity (.binOp l op r) = 0)
      ∧ (∀ f args, checkConditionalComplexity (.call f args) = 0)
      ∧ (∀ e, checkConditionalComplexity (.unaryNot e) = 0) := by
  refine ⟨?_, ?_, ?_, fun _ _ => rfl, fun _ => rfl, fun _ _ _ => rfl,
    fun _ _ => rfl, fun _ => rfl⟩
  · have h := anStmts_conds m ⟨none, [], [], []⟩
    simpa [analyze_code] using h
  · intro op vs
    simp [checkConditionalComplexity, ccList_eq_map_sum]
  · intro l ops cs
    simp [checkConditionalComplexity, ccList_eq_map_sum, Nat.add_assoc]

/-- Helper: folding DeadCodeCleaner steps distributes over appended
event lists. -/
theorem dcFold_append (a : List DCEvent) :
    ∀ (b : List DCEvent) (st : DCState),
      dcFold st (a ++ b) = dcFold (dcFold st a) b := by
  induction a with
  | nil => intro b st; rfl
  | cons ev evs ih => intro b st; simp [dcFold, ih]

/-- Helper: the target-flagging loop of visit_Assign is the event fold of
the target events. -/
theorem dcFlagTargets_eq_fold (ts : List Expr) :
    ∀ st : DCState, dcFlagTargets st ts = dcFold st (dcTargetEvents ts) := by
  induction ts with
  | nil => intro st; rfl
  | cons t ts ih =>
      intro st
      cases t <;> simp only [dcFlagTargets, dcTargetEvents, dcFold, dcStep, ih]
      split <;> simp [ih]

mutual
/-- Helper: the DeadCodeCleaner expression walk is the event fold of the
expression events. -/
theorem dcExpr_eq_fold : ∀ (e : Expr) (st : DCState),
    dcExpr st e = dcFold st (dcEventsExpr e)
  | .name id ctx, st => by
      cases ctx <;> simp [dcExpr, dcEventsExpr, dcFold, dcStep]
  | .num n, st => by simp [dcExpr, dcEventsExpr, dcFold]
  | .boolOp op vs, st => by
      simp [dcExpr, dcEventsExpr, dcExprList_eq_fold vs]
  | .compare l ops cs, st => by
      simp [dcExpr, dcEventsExpr, dcFold_append,
        dcExpr_eq_fold l, dcExprList_eq_fold cs]
  | .binOp l op r, st => by
      simp [dcExpr, dcEventsExpr, dcFold_append,
        dcExpr_eq_fold l, dcExpr_eq_fold r]
  | .call f args, st => by
      simp [dcExpr, dcEventsExpr, dcFold_append,
        dcExpr_eq_fold f, dcExprList_eq_fold args]
  | .unaryNot e, st => by
      simp [dcExpr, dcEventsExpr, dcExpr_eq_fold e]

/-- Helper: list version of `dcExpr_eq_fold`. -/
theorem dcExprList_eq_fold : ∀ (es : List Expr) (st : DCState),
    dcExprList st es = dcFold st (dcEventsExprList es)
  | [], st => by simp [dcExprList, dcEventsExprList, dcFold]
  | e :: es, st => by
      simp [dcExprList, dcEventsExprList, dcFold_append,
        dcExpr_eq_fold e, dcExprList_eq_fold es]
end

mutual
/-- Helper: the DeadCodeCleaner statement walk is the event fold of the
statement events. -/
theorem dcStmt_eq_fold : ∀ (s : Stmt) (st : DCState),
    dcStmt st s = dcFold st (dcEventsStmt s)
  | .assign ts v lineno, st => by
      simp [dcStmt, dcEventsStmt, dcFold_append, dcFlagTargets_eq_fold,
        dcExprList_eq_fold ts, dcExpr_eq_fold v]
  | .functionDef fname body l e, st => by
      simp [dcStmt, dcEventsStmt, dcStmts_eq_fold body]
  | .ifStmt t body orelse lineno, st => by
      simp [dcStmt, dcEventsStmt, dcFold_append, dcExpr_eq_fold t,
        dcStmts_eq_fold body, dcStmts_eq_fold orelse]
  | .ret none, st => by simp [dcStmt, dcEventsStmt, dcFold]
  | .ret (some e), st => by simp [dcStmt, dcEventsStmt, dcExpr_eq_fold e]
  | .exprStmt e, st => by simp [dcStmt, dcEventsStmt, dcExpr_eq_fold e]
  | .pass, st => by simp [dcStmt, dcEventsStmt, dcFold]

/-- Helper: list version of `dcStmt_eq_fold`. -/
theorem dcStmts_eq_fold : ∀ (ss : List Stmt) (st : DCState),
    dcStmts st ss = dcFold st (dcEventsStmts ss)
  | [], st => by simp [dcStmts, dcEventsStmts, dcFold]
  | s :: rest, st => by
      simp [dcStmts, dcEventsStmts, dcFold_append,
        dcStmt_eq_fold s, dcStmts_eq_fold rest]
end

/-- Helper: the change log of the event fold is the earlier-load
characterization, given that the used set agrees with the loads seen so
far. -/
theorem dcFold_changes (evs : List DCEvent) :
    ∀ (st : DCState) (loads : List String),
      (∀ x : String, x ∈ st.used_vars ↔ x ∈ loads) →
      (dcFold st evs).changes_made = st.changes_made ++ dcFlagsSpec loads evs := by
  induction evs with
  | nil => intro st loads _; simp [dcFold, dcFlagsSpec]
  | cons ev evs ih =>
      intro st loads h
      cases ev with
      | loadRef id =>
          simp only [dcFold, dcStep, dcFlagsSpec, dcAddUsed]
          split
          · rename_i hmem
            rw [ih st (id :: loads) ?_]
            intro x
            rw [h x]
            simp only [List.mem_cons]
            constructor
            · exact Or.inr
            · rintro (rfl | hx)
              · exact (h x).mp (by simpa using hmem)
              · exact hx
          · rw [ih _ (id :: loads) ?_]
            intro x
            simp only [List.mem_cons, h x]
      | assignTarget id =>
          by_cases hm : id ∈ st.used_vars
          · have hl : id ∈ loads := (h id).mp hm
            simp only [dcFold, dcStep, dcFlagsSpec]
            rw [if_pos (by simpa using hm), if_pos (by simpa using hl)]
            exact ih st loads h
          · have hl : id ∉ loads := fun hx => hm ((h id).mpr hx)
            simp only [dcFold, dcStep, dcFlagsSpec]
            rw [if_neg (by simpa using hm), if_neg (by simpa using hl)]
            rw [ih ⟨st.used_vars, st.changes_made ++ [Change.unusedVar id]⟩ loads h]
            simp

/-- Claim C5 (amended): remove_dead_code never changes the program, and
it flags exactly those assignment targets whose identifier has not been
referenced in load context strictly earlier in traversal order; an
identifier loaded only after its assignment is therefore still flagged
(see the counterexample). -/
theorem c5_amended_flags_without_earlier_load (m : PyModule) :
    (remove_dead_code m).1 = m
      ∧ (remove_dead_code m).2 = dcFlagsSpec [] (dcEventsStmts m) := by
  refine ⟨rfl, ?_⟩
  show (dcStmts ⟨[], []⟩ m).changes_made = _
  rw [dcStmts_eq_fold]
  simpa using dcFold_changes (dcEventsStmts m) ⟨[], []⟩ [] (by simp)

/-- Invariant of the rename table: every recorded replacement name is
itself immune to renaming (it has the value_ prefix, hence length at
least 7). -/
def TblOk (tbl : List (String × String)) : Prop :=
  ∀ p ∈ tbl, renTargetHit p.2 = false

/-- Helper: a replacement name of the form value_ plus a letter is never
hit again by the renamer. -/
theorem renTargetHit_value_named (id : String) :
    renTargetHit ("value_" ++ id) = false := by
  have h6 : ("value_" : String).length = 6 := rfl
  simp only [renTargetHit, String.length_append, h6, Bool.and_eq_false_iff]
  left
  simp only [beq_eq_false_iff_ne, ne_eq]
  omega

/-- Helper: looking up a well-formed table yields an immune name. -/
theorem tblLookup_ok {tbl : List (String × String)} {k v : String}
    (h : TblOk tbl) (hl : tblLookup tbl k = some v) : renTargetHit v = false := by
  unfold tblLookup at hl
  cases hfind : tbl.find? (fun p => p.1 == k) with
  | none => rw [hfind] at hl; cases hl
  | some p =>
      rw [hfind] at hl
      cases hl
      exact h p (List.mem_of_find?_eq_some hfind)

/-- Helper: rewriting references with a well-formed table keeps an
assignment target immune. -/
theorem renExpr_targetOk {tbl : List (String × String)} (h : TblOk tbl) :
    ∀ t : Expr, renTargetOk t = true → renTargetOk (renExpr tbl t) = true := by
  intro t ht
  cases t with
  | name id ctx =>
      cases ctx with
      | store => simpa [renExpr, renTargetOk] using ht
      | load =>
          cases hl : tblLookup tbl id with
          | none => simpa [renExpr, hl, renTargetOk] using ht
          | some v => simp [renExpr, hl, renTargetOk, tblLookup_ok h hl]
  | num n => simp [renExpr, renTargetOk]
  | boolOp op vs => simp [renExpr, renTargetOk]
  | compare l ops cs => simp [renExpr, renTargetOk]
  | binOp l op r => simp [renExpr, renTargetOk]
  | call f args => simp [renExpr, renTargetOk]
  | unaryNot e => simp [renExpr, renTargetOk]

/-- Helper: rewriting a target list with a well-formed table keeps every
target immune. -/
theorem renExprList_targetsOk {tbl : List (String × String)} (h : TblOk tbl) :
    ∀ ts : List Expr, renTargetsOk ts = true →
      renTargetsOk (renExprList tbl ts) = true := by
  intro ts
  induction ts with
  | nil => intro _; rfl
  | cons t ts ih =>
      intro hts
      simp only [renTargetsOk, Bool.and_eq_true] at hts
      simp [renExprList, renTargetsOk, renExpr_targetOk h t hts.1, ih hts.2]

/-- Helper: the target-renaming loop keeps the table well formed and
leaves every produced target immune. -/
theorem renTargets_ok (ts : List Expr) :
    ∀ tbl : List (String × String), TblOk tbl →
      TblOk (renTargets tbl ts).2.1
        ∧ renTargetsOk (renTargets tbl ts).1 = true := by
  induction ts with
  | nil => intro tbl h; exact ⟨h, rfl⟩
  | cons t ts ih =>
      intro tbl h
      cases t with
      | name id ctx =>
          by_cases hit : renTargetHit id = true
          · have htbl : TblOk ((id, "value_" ++ id) :: tbl) := by
              intro p hp
              rcases List.mem_cons.mp hp with rfl | hp
              · exact renTargetHit_value_named id
              · exact h p hp
            have := ih ((id, "value_" ++ id) :: tbl) htbl
            simp only [renTargets, hit, if_pos]
            exact ⟨this.1, by
              simp [renTargetsOk, renTargetOk, renTargetHit_value_named, this.2]⟩
          · have := ih tbl h
            simp only [renTargets, hit, if_neg, Bool.not_eq_true]
            simp only [Bool.not_eq_true] at hit
            simp [hit, renTargetsOk, renTargetOk, this.1, this.2]
      | num n => simpa [renTargets, renTargetsOk, renTargetOk] using ih tbl h
      | boolOp op vs => simpa [renTargets, renTargetsOk, renTargetOk] using ih tbl h
      | compare l ops cs => simpa [renTargets, renTargetsOk, renTargetOk] using ih tbl h
      | binOp l op r => simpa [renTargets, renTargetsOk, renTargetOk] using ih tbl h
      | call f args => simpa [renTargets, renTargetsOk, renTargetOk] using ih tbl h
      | unaryNot e => simpa [renTargets, renTargetsOk, renTargetOk] using ih tbl h

mutual
/-- Helper: one renamer pass leaves every assignment target in its
output immune to a further rename, and keeps the table well formed. -/
theorem renStmt_stable : ∀ (s : Stmt) (tbl : List (String × String)),
    TblOk tbl →
      renStableStmt (renStmt tbl s).1 = true ∧ TblOk (renStmt tbl s).2.1
  | .assign targets value lineno, tbl, h => by
      have ht := renTargets_ok targets tbl h
      exact ⟨by simp [renStmt, renStableStmt, renExprList_targetsOk ht.1 _ ht.2],
        ht.1⟩
  | .functionDef fname body l e, tbl, h => by
      have hb := renStmts_stable body tbl h
      exact ⟨by simp [renStmt, renStableStmt, hb.1], hb.2⟩
  | .ifStmt test body orelse lineno, tbl, h => by
      have hb := renStmts_stable body tbl h
      have ho := renStmts_stable orelse (renStmts tbl body).2.1 hb.2
      exact ⟨by simp [renStmt, renStableStmt, hb.1, ho.1], ho.2⟩
  | .ret v, tbl, h => ⟨rfl, h⟩
  | .exprStmt v, tbl, h => ⟨rfl, h⟩
  | .pass, tbl, h => ⟨rfl, h⟩

/-- Helper: list version of `renStmt_stable`. -/
theorem renStmts_stable : ∀ (ss : List Stmt) (tbl : List (String × String)),
    TblOk tbl →
      renStableStmts (renStmts tbl ss).1 = true ∧ TblOk (renStmts tbl ss).2.1
  | [], tbl, h => ⟨rfl, h⟩
  | s :: rest, tbl, h => by
      have h1 := renStmt_stable s tbl h
      have h2 := renStmts_stable rest (renStmt tbl s).2.1 h1.2
      exact ⟨by simp [renStmts, renStableStmts, h1.1, h2.1], h2.2⟩
end

mutual
/-- Helper: with an empty table the reference rewrite is the identity. -/
theorem renExpr_nil : ∀ e : Expr, renExpr [] e = e
  | .name id ctx => by cases ctx <;> simp [renExpr, tblLookup]
  | .num n => rfl
  | .boolOp op vs => by simp [renExpr, renExprList_nil vs]
  | .compare l ops cs => by simp [renExpr, renExpr_nil l, renExprList_nil cs]
  | .binOp l op r => by simp [renExpr, renExpr_nil l, renExpr_nil r]
  | .call f args => by simp [renExpr, renExpr_nil f, renExprList_nil args]
  | .unaryNot e => by simp [renExpr, renExpr_nil e]

/-- Helper: list version of `renExpr_nil`. -/
theorem renExprList_nil : ∀ es : List Expr, renExprList [] es = es
  | [] => rfl
  | e :: es => by simp [renExprList, renExpr_nil e, renExprList_nil es]
end

/-- Helper: on immune targets and an empty table the target loop renames
nothing. -/
theorem renTargets_nil_stable (ts : List Expr) :
    renTargetsOk ts = true → renTargets [] ts = (ts, [], []) := by
  induction ts with
  | nil => intro _; rfl
  | cons t ts ih =>
      intro h
      simp only [renTargetsOk, Bool.and_eq_true] at h
      cases t with
      | name id ctx =>
          have hit : renTargetHit id = false := by
            simpa [renTargetOk] using h.1
          simp [renTargets, hit, ih h.2]
      | num n => simp [renTargets, ih h.2]
      | boolOp op vs => simp [renTargets, ih h.2]
      | compare l ops cs => simp [renTargets, ih h.2]
      | binOp l op r => simp [renTargets, ih h.2]
      | call f args => simp [renTargets, ih h.2]
      | unaryNot e => simp [renTargets, ih h.2]

mutual
/-- Helper: a second renamer pass over stable output is the identity and
records no change. -/
theorem renStmt_nil_stable : ∀ s : Stmt, renStableStmt s = true →
    renStmt [] s = (s, [], [])
  | .assign targets value lineno, h => by
      have ht : renTargetsOk targets = true := by simpa [renStableStmt] using h
      simp [renStmt, renTargets_nil_stable targets ht, renExprList_nil,
        renExpr_nil]
  | .functionDef fname body l e, h => by
      have hb : renStableStmts body = true := by simpa [renStableStmt] using h
      simp [renStmt, renStmts_nil_stable body hb]
  | .ifStmt test body orelse lineno, h => by
      have hb : renStableStmts body = true ∧ renStableStmts orelse = true := by
        simpa [renStableStmt, Bool.and_eq_true] using h
      simp [renStmt, renStmts_nil_stable body hb.1,
        renStmts_nil_stable orelse hb.2, renExpr_nil]
  | .ret v, _ => by cases v <;> simp [renStmt, renExpr_nil]
  | .exprStmt v, _ => by simp [renStmt, renExpr_nil]
  | .pass, _ => rfl

/-- Helper: list version of `renStmt_nil_stable`. -/
theorem renStmts_nil_stable : ∀ ss : List Stmt, renStableStmts ss = true →
    renStmts [] ss = (ss, [], [])
  | [], _ => rfl
  | s :: rest, h => by
      have h1 : renStableStmt s = true ∧ renStableStmts rest = true := by
        simpa [renStableStmts, Bool.and_eq_true] using h
      simp [renStmts, renStmt_nil_stable s h1.1, renStmts_nil_stable rest h1.2]
end

/-- Claim C8 (confirmed): applying rename_variables twice produces the
same tree as applying it once, and the second application records no
change: every target the first pass renamed now carries the value_
prefix (length at least 7) and every other target already failed the
one-character test, so the second pass never populates its table and
rewrites nothing. -/
theorem c8_rename_idempotent (m : PyModule) :
    rename_unclear_variables ((rename_unclear_variables m).1)
      = ((rename_unclear_variables m).1, []) := by
  have hstable := (renStmts_stable m [] (fun p hp => absurd hp (List.not_mem_nil p))).1
  show ((renStmts [] (renStmts [] m).1).1, (renStmts [] (renStmts [] m).1).2.2) = _
  rw [renStmts_nil_stable (renStmts [] m).1 hstable]
  rfl

/-- Helper: a successful table lookup returns a recorded replacement. -/
theorem tblLookup_image {tbl : List (String × String)} {k v : String}
    (hl : tblLookup tbl k = some v) : ∃ p ∈ tbl, p.2 = v := by
  unfold tblLookup at hl
  cases hfind : tbl.find? (fun p => p.1 == k) with
  | none => rw [hfind] at hl; cases hl
  | some p =>
      rw [hfind] at hl
      cases hl
      exact ⟨p, List.mem_of_find?_eq_some hfind, rfl⟩

mutual
/-- Helper: when the table maps the old name and never maps anything to
it, the rewritten expression holds no Load reference to the old name. -/
theorem renExpr_no_load : ∀ (e : Expr) (tbl : List (String × String)) (q : String),
    (tblLookup tbl q).isSome = true → (∀ p ∈ tbl, p.2 ≠ q) →
    hasLoadOf q (renExpr tbl e) = false
  | .name id ctx, tbl, q, hq, him => by
      cases ctx with
      | store => simp [renExpr, hasLoadOf]
      | load =>
          cases hl : tblLookup tbl id with
          | none =>
              have hne : id ≠ q := by
                intro heq
                rw [heq] at hl
                rw [hl] at hq
                cases hq
              simp [renExpr, hl, hasLoadOf, hne]
          | some v =>
              have hv : v ≠ q := by
                rcases tblLookup_image hl with ⟨p, hp, rfl⟩
                exact him p hp
              simp [renExpr, hl, hasLoadOf, hv]
  | .num n, tbl, q, hq, him => by simp [renExpr, hasLoadOf]
  | .boolOp op vs, tbl, q, hq, him => by
      simp [renExpr, hasLoadOf, renExprList_no_load vs tbl q hq him]
  | .compare l ops cs, tbl, q, hq, him => by
      simp [renExpr, hasLoadOf, renExpr_no_load l tbl q hq him,
        renExprList_no_load cs tbl q hq him]
  | .binOp l op r, tbl, q, hq, him => by
      simp [renExpr, hasLoadOf, renExpr_no_load l tbl q hq him,
        renExpr_no_load r tbl q hq him]
  | .call f args, tbl, q, hq, him => by
      simp [renExpr, hasLoadOf, renExpr_no_load f tbl q hq him,
        renExprList_no_load args tbl q hq him]
  | .unaryNot e, tbl, q, hq, him => by
      simp [renExpr, hasLoadOf, renExpr_no_load e tbl q hq him]

/-- Helper: list version of `renExpr_no_load`. -/
theorem renExprList_no_load : ∀ (es : List Expr) (tbl : List (String × String))
    (q : String),
    (tblLookup tbl q).isSome = true → (∀ p ∈ tbl, p.2 ≠ q) →
    hasLoadOfList q (renExprList tbl es) = false
  | [], tbl, q, hq, him => rfl
  | e :: es, tbl, q, hq, him => by
      simp [renExprList, hasLoadOfList, renExpr_no_load e tbl q hq him,
        renExprList_no_load es tbl q hq him]
end

/-- Claim C10 (confirmed): when an assignment with a single Name target
triggers a rename, the table entry is recorded before generic_visit
walks the value, so the rewritten right-hand side carries the new name
wherever the old name was loaded and no Load reference to the old name
survives. -/
theorem c10_rhs_references_renamed (q : String) (rhs : Expr) (lineno : Nat)
    (h : renTargetHit q = true) :
    rename_unclear_variables [.assign [.name q .store] rhs lineno]
        = ([.assign [.name ("value_" ++ q) .store]
              (renExpr [(q, "value_" ++ q)] rhs) lineno],
           [.renamedVar q ("value_" ++ q)])
      ∧ hasLoadOf q (renExpr [(q, "value_" ++ q)] rhs) = false := by
  constructor
  · simp [rename_unclear_variables, renStmts, renStmt, renTargets, h,
      renExprList, renExpr]
  · apply renExpr_no_load
    · simp [tblLookup]
    · intro p hp
      rcases List.mem_cons.mp hp with rfl | hnil
      · have h1 : q.length = 1 := by
          simp only [renTargetHit, Bool.and_eq_true, beq_iff_eq] at h
          exact h.1
        intro heq
        have heq2 : ("value_" ++ q) = q := heq
        have h2 : ("value_" ++ q).length = q.length := by rw [heq2]
        have h6 : ("value_" : String).length = 6 := rfl
        rw [String.length_append, h6, h1] at h2
        omega
      · exact absurd hnil (List.not_mem_nil p)

/-- Witness for claim C10: the assignment q = q + 1 becomes
value_q = value_q + 1 with one rename record, and no Load reference to q
survives in the rewritten value. -/
theorem c10_rhs_references_renamed_witness :
    rename_unclear_variables
        [.assign [.name "q" .store] (.binOp (.name "q" .load) .add (.num 1)) 1]
        = ([.assign [.name "value_q" .store]
              (.binOp (.name "value_q" .load) .add (.num 1)) 1],
           [.renamedVar "q" "value_q"])
      ∧ hasLoadOf "q" (.binOp (.name "value_q" .load) .add (.num 1)) = false :=
  c10_rhs_references_renamed "q" (.binOp (.name "q" .load) .add (.num 1)) 1
    (by decide)
